import Mathlib

/-!
Verification of the proof-construction / proof-verification core of the
gpuowl repository (Proof.cpp: challenge hash chain, Proof save/load/verify,
ProofSet::computeProof) against its natural-language specification.

Residues (`Words`) are modelled, following the spec data model (§3), as
little-endian byte sequences of exactly ceil(E/8) bytes; arithmetic is on
their natural-number values modulo 2^E - 1.
-/

/-- A residue is a little-endian byte sequence (each entry < 256 in intent). -/
abbrev Words := List Nat

/-- Value of a little-endian byte sequence. -/
def wordsToNat : Words → Nat
  | [] => 0
  | b :: bs => b + 256 * wordsToNat bs

/-- Encode a value as exactly `nB` little-endian bytes (truncating above 256^nB). -/
def natToWords : Nat → Nat → Words
  | 0, _ => []
  | nB + 1, v => v % 256 :: natToWords nB (v / 256)

/-- Byte count of a residue for exponent E, as computed throughout Proof.cpp:
`(E - 1) / 8 + 1`. -/
def nBytes (E : Nat) : Nat := (E - 1) / 8 + 1

/-- The modulus 2^E - 1 of the Mersenne number under test. -/
def Mp (E : Nat) : Nat := 2 ^ E - 1

/-- Iterated modular squaring: `n` squarings of `v` (mod 2^E - 1). -/
def sqIter (E : Nat) : Nat → Nat → Nat
  | 0, v => v
  | n + 1, v => sqIter E n (v * v % Mp E)

/-- Modelled from the spec: the compute backend operation
`squareRepeated(residue, n) -> residue^(2^n) mod (2^E-1)` (§6); the residue is
reduced and squared `n` times. -/
def squareRepeated (E n v : Nat) : Nat := sqIter E n (v % Mp E)

/-- Modelled from the spec: the compute backend operation
`combine(X, scalar, Y) = X^scalar * Y mod (2^E-1)` (§6), on residue values. -/
def specCombine (E x c y : Nat) : Nat := x ^ c * y % Mp E

/-- Modelled from the spec: `Gpu::expMul` (Gpu.h is not part of the corpus),
the byte-level form of `combine`: result residue of `X^h * Y mod (2^E-1)`. -/
def expMul (E : Nat) (X : Words) (h : Nat) (Y : Words) : Words :=
  natToWords (nBytes E) (specCombine E (wordsToNat X) h (wordsToNat Y))

/-- Modelled from the spec: `Gpu::expExp2` (Gpu.h is not part of the corpus),
the byte-level form of `squareRepeated`: `n` squarings of `A` mod 2^E - 1. -/
def expExp2 (E : Nat) (A : Words) (n : Nat) : Words :=
  natToWords (nBytes E) (squareRepeated E n (wordsToNat A))

/-- Modelled from the spec: `makeWords(E, v)` = `makeResidue(E, smallInt)` of
§6, the residue holding a small literal integer. -/
def makeWords (E v : Nat) : Words := natToWords (nBytes E) v

/-- Modelled from the spec: `Gpu::readAndCompress`, compressing a buffer value
back to a canonical `Words` residue (§6). -/
def readAndCompress (E v : Nat) : Words := natToWords (nBytes E) (v % Mp E)

/-- Modelled from the spec: `roundUp` from common.h (not in the corpus); the
spec derives `topK` as the smallest multiple of `m = 2^P` strictly greater
than `E` (§3). -/
def roundUp (x m : Nat) : Nat := (x / m + 1) * m

/-- A 256-bit hash value, 32 little-endian bytes (layout of `array<u64,4>`
on a little-endian machine, as Proof.cpp statically asserts). -/
def hash256ToBytes (h : Nat) : List Nat := natToWords 32 h

/-- Source `proof::hashWords(E, words)`: SHA3 over the first `(E-1)/8+1` bytes of the
residue.  The SHA3 primitive itself is a black box (Sha3Hash.h is not in the
corpus) and is passed in as a function from the absorbed byte stream to the
256-bit digest value. -/
def hashWords (sha3 : List Nat → Nat) (E : Nat) (words : Words) : Nat :=
  sha3 (words.take ((E - 1) / 8 + 1))

/-- Source `proof::hashWords(E, prefix, words)`: SHA3 absorbing the 32 prefix bytes
followed by the first `(E-1)/8+1` bytes of the residue. -/
def hashWordsPre (sha3 : List Nat → Nat) (E : Nat) (pre : Nat) (words : Words) : Nat :=
  sha3 (hash256ToBytes pre ++ words.take ((E - 1) / 8 + 1))

/-- The Proof artifact: exponent E, final residue B, per-level middles. -/
structure Proof where
  E : Nat
  B : Words
  middles : List Words
deriving DecidableEq, Repr

/-- Errors thrown by the serializer paths: `badHeader` is the
"Invalid proof header" throw; `shortRead` is the failure of `File::readBytesLE`
on a truncated body. -/
inductive ProofErr where
  | badHeader
  | shortRead
deriving DecidableEq, Repr

/-- Modelled from the spec: a proof file, abstracting the text header (the
exact format string `Proof::HEADER` lives in Proof.h, outside the corpus) by
the outcome of `scanf(HEADER, &power, &E, &c)`: the number of matched fields,
the two parsed integers, the character parsed after them (10 = newline), and
the binary body bytes that follow the header. -/
structure ProofFile where
  scanCount : Nat
  power : Nat
  E : Nat
  c : Nat
  body : List Nat
deriving DecidableEq, Repr

/-- Source `Proof::save`: header fields from the proof, then `B` and each middle as
`(E-1)/8+1` raw bytes. -/
def Proof.save (p : Proof) : ProofFile :=
  { scanCount := 3
    power := p.middles.length
    E := p.E
    c := 10
    body := p.B.take (nBytes p.E)
      ++ (p.middles.map (fun w => w.take (nBytes p.E))).foldr (fun a b => a ++ b) [] }

/-- Modelled from the spec: `File::readBytesLE(n)` (File.h is not in the
corpus); reads exactly `n` bytes from the stream, failing fatally when fewer
remain ("read exactly power trailing blocks of the declared size", §4.3). -/
def readBytesLE (n : Nat) (bs : List Nat) : Except ProofErr (Words × List Nat) :=
  if bs.length < n then .error .shortRead else .ok (bs.take n, bs.drop n)

/-- The middles-reading loop of `Proof::load`: `power` consecutive blocks,
with the fatal read failure propagated. -/
def readMiddles (n : Nat) : Nat → List Nat → Except ProofErr (List Words × List Nat)
  | 0, bs => .ok ([], bs)
  | k + 1, bs =>
    match readBytesLE n bs with
    | .error e => .error e
    | .ok (w, bs1) =>
      match readMiddles n k bs1 with
      | .error e => .error e
      | .ok (ws, bs2) => .ok (w :: ws, bs2)

/-- Source `Proof::load`: validate the header (field count 3 and trailing newline),
then read `B` and `power` middles of `(E-1)/8+1` bytes each. -/
def Proof.load (f : ProofFile) : Except ProofErr Proof :=
  if f.scanCount ≠ 3 ∨ f.c ≠ 10 then .error .badHeader
  else
    match readBytesLE (nBytes f.E) f.body with
    | .error e => .error e
    | .ok (B, rest) =>
      match readMiddles (nBytes f.E) f.power rest with
      | .error e => .error e
      | .ok (middles, _) => .ok { E := f.E, B := B, middles := middles }

/-- Metadata record `ProofInfo`: header fields plus the whole-file digest. -/
structure ProofInfo where
  power : Nat
  E : Nat
  hash : Nat
deriving DecidableEq, Repr

/-- Source `proof::getInfo`: digest the whole file (the MD5 primitive is a black box,
passed as a function), then parse just the header, failing on a malformed
header. -/
def proof.getInfo (md5 : ProofFile → Nat) (f : ProofFile) : Except ProofErr ProofInfo :=
  let hash := md5 f
  if f.scanCount ≠ 3 ∨ f.c ≠ 10 then .error .badHeader
  else .ok { power := f.power, E := f.E, hash := hash }

/-- The result of `Proof::verify`: the returned `ok`, the logged `isPrime`
signal, and the `Proof` object after the call (the method is non-const and
reassigns the member `B` inside the folding loop). -/
structure VerifyResult where
  ok : Bool
  isPrime : Bool
  final : Proof
deriving DecidableEq, Repr

/-- One iteration of the folding loop of `Proof::verify` (lines 105-111):
state is `(A, B, hash)`; the hash is extended with the middle, its low 64
bits are the challenge, then `A = expMul(A, h, M)` and `B = expMul(M, h, B)`. -/
def verifyFoldStep (sha3 : List Nat → Nat) (E : Nat) (st : Words × Words × Nat) (M : Words) :
    Words × Words × Nat :=
  let hash := hashWordsPre sha3 E st.2.2 M
  let h := hash % 2 ^ 64
  (expMul E st.1 h M, expMul E M h st.2.1, hash)

/-- Source `Proof::verify` (lines 82-123): the primality-extension check, then the
fold-proof check, returning `ok` and the mutated object. -/
def Proof.verifyRun (sha3 : List Nat → Nat) (p : Proof) : VerifyResult :=
  let power := p.middles.length
  let topK := roundUp p.E (2 ^ power)
  let step := topK / 2 ^ power
  let isPrime := expExp2 p.E (makeWords p.E 3) (topK - p.E + 1) == p.B
  let st0 := (makeWords p.E 3, p.B, hashWords sha3 p.E p.B)
  let st := p.middles.foldl (verifyFoldStep sha3 p.E) st0
  let A := expExp2 p.E st.1 step
  { ok := A == st.2.1
    isPrime := isPrime
    final := { E := p.E, B := st.2.1, middles := p.middles } }

/-- The fold-proof part of `Proof::verify` alone (lines 101-116), with no
primality-extension computation. -/
def Proof.foldCheck (sha3 : List Nat → Nat) (p : Proof) : Bool :=
  let power := p.middles.length
  let topK := roundUp p.E (2 ^ power)
  let step := topK / 2 ^ power
  let st0 := (makeWords p.E 3, p.B, hashWords sha3 p.E p.B)
  let st := p.middles.foldl (verifyFoldStep sha3 p.E) st0
  expExp2 p.E st.1 step == st.2.1

/-- The three assertions at the head of `Proof::verify` (lines 84-88):
`power > 0`, `topK % (1 << power) == 0`, `topK > E`. -/
def Proof.verifyAsserts (p : Proof) : Prop :=
  0 < p.middles.length
    ∧ roundUp p.E (2 ^ p.middles.length) % 2 ^ p.middles.length = 0
    ∧ p.E < roundUp p.E (2 ^ p.middles.length)

/-- Modelled from the spec: one level-`i` update of the fold-proof check of
§4.5 step 3, on residue values: extend the hash with the middle, take the low
64 bits as the challenge `c`, then `A = combine(A, c, middle)` and
`B = combine(middle, c, B)`. -/
def specFoldStep (sha3 : List Nat → Nat) (E : Nat) (st : Nat × Nat × Nat) (M : Words) :
    Nat × Nat × Nat :=
  let h := hashWordsPre sha3 E st.2.2 M
  let c := h % 2 ^ 64
  (specCombine E st.1 c (wordsToNat M), specCombine E (wordsToNat M) c st.2.1, h)

/-- Modelled from the spec: the fold-proof check of §4.5 step 3 as written:
initialize `A = 3` and `h = H(E, B)`, fold every level, apply `step` repeated
squarings to `A`, accept iff the final `A` equals the final `B`. -/
def specFoldCheck (sha3 : List Nat → Nat) (E : Nat) (B : Words) (middles : List Words)
    (step : Nat) : Bool :=
  let st0 := ((3 : Nat), wordsToNat B, hashWords sha3 E B)
  let st := middles.foldl (specFoldStep sha3 E) st0
  squareRepeated E step st.1 == st.2.1

/-- The carry-propagation loop of `ProofSet::computeProof` (lines 148-152),
with explicit fuel (the loop consumes one stack slot per iteration, so fuel
equal to the stack length never cuts it short): while bit `k` of `i` is set,
fold the top two stack entries with challenge `hashes[p - 1 - k]`. -/
def foldTrailAux (E : Nat) (hs : List Nat) (p i : Nat) : Nat → Nat → List Nat → List Nat
  | 0, _, stack => stack
  | fuel + 1, k, stack =>
    if i.testBit k then
      match stack with
      | y :: x :: rest =>
        foldTrailAux E hs p i fuel (k + 1)
          (specCombine E x (hs.getD (p - 1 - k) 0) y :: rest)
      | s => s
    else stack

/-- The carry-propagation loop, run with adequate fuel. -/
def foldTrail (E : Nat) (hs : List Nat) (p i k : Nat) (stack : List Nat) : List Nat :=
  foldTrailAux E hs p i stack.length k stack

/-- One iteration `i` of the leaf loop of `ProofSet::computeProof`
(lines 145-153): load the persisted residue at iteration `s * (2i + 1)` with
`s = topK / 2^(p+1)`, push it, then propagate carries. -/
def buildStep (E : Nat) (hs : List Nat) (p topK : Nat) (load : Nat → Words)
    (stack : List Nat) (i : Nat) : List Nat :=
  foldTrail E hs p i 0 (wordsToNat (load (topK / 2 ^ (p + 1) * (2 * i + 1))) :: stack)

/-- Builder state across levels: the middles so far, the per-level low-64-bit
challenges (`hashes`), and the full 256-bit chain state (`hash`). -/
structure BuildState where
  middles : List Words
  hashes : List Nat
  hash : Nat
deriving DecidableEq, Repr

/-- Builder state before level 0: `hash = H(E, B)` with `B = load(topK)`. -/
def buildInit (sha3 : List Nat → Nat) (E : Nat) (B : Words) : BuildState :=
  { middles := [], hashes := [], hash := hashWords sha3 E B }

/-- Level `p` of `ProofSet::computeProof` (lines 140-158): fold the `2^p`
leaves, compress the single remaining buffer (buffer 0, the bottom of the
stack) into the middle, append it, extend the hash chain and record its low
64 bits. -/
def buildLevel (sha3 : List Nat → Nat) (E topK : Nat) (load : Nat → Words)
    (st : BuildState) (p : Nat) : BuildState :=
  let stack := (List.range (2 ^ p)).foldl (buildStep E st.hashes p topK load) []
  let middle := readAndCompress E (stack.getLast?.getD 0)
  let hash := hashWordsPre sha3 E st.hash middle
  { middles := st.middles ++ [middle]
    hashes := st.hashes ++ [hash % 2 ^ 64]
    hash := hash }

/-- Builder state after the first `p` levels. -/
def buildStateAt (sha3 : List Nat → Nat) (E topK : Nat) (load : Nat → Words) (p : Nat) :
    BuildState :=
  (List.range p).foldl (buildLevel sha3 E topK load) (buildInit sha3 E (load topK))

/-- Source `ProofSet::computeProof` (lines 127-160): `B = load(topK)`, run all
`power` levels, return `Proof{E, B, middles}`.  The persistence layer
(`ProofSet::load`, from ProofSet.h which is not in the corpus) is passed in
as the function `load` from iteration index to residue, per §6. -/
def ProofSet.computeProof (sha3 : List Nat → Nat) (E power topK : Nat) (load : Nat → Words) :
    Proof :=
  { E := E
    B := load topK
    middles := (buildStateAt sha3 E topK load power).middles }

/-- Number of trailing one bits of a natural number (the iteration count of
the carry-propagation loop at leaf index `i`). -/
def trailOnes (n : Nat) : Nat :=
  if h : n % 2 = 1 then trailOnes (n / 2) + 1 else 0
termination_by n
decreasing_by exact Nat.div_lt_self (by omega) (by omega)

/-- Number of one bits of a natural number (the number of live accumulators
after processing that many leaves). -/
def onesCount (n : Nat) : Nat :=
  if n = 0 then 0 else n % 2 + onesCount (n / 2)
termination_by n
decreasing_by exact Nat.div_lt_self (by omega) (by omega)

/-! ### Helper lemmas about the byte encoding and modular arithmetic -/

theorem wordsToNat_natToWords (nB v : Nat) :
    wordsToNat (natToWords nB v) = v % 256 ^ nB := by
  induction nB generalizing v with
  | zero => simp [natToWords, wordsToNat, Nat.mod_one]
  | succ n ih =>
    simp only [natToWords, wordsToNat, ih]
    rw [pow_succ, mul_comm (256 ^ n) 256, Nat.mod_mul]

theorem natToWords_length (nB v : Nat) : (natToWords nB v).length = nB := by
  induction nB generalizing v with
  | zero => rfl
  | succ n ih => simp [natToWords, ih]

theorem natToWords_inj {nB x y : Nat} (hx : x < 256 ^ nB) (hy : y < 256 ^ nB)
    (h : natToWords nB x = natToWords nB y) : x = y := by
  have hx2 := wordsToNat_natToWords nB x
  have hy2 := wordsToNat_natToWords nB y
  rw [h, hy2, Nat.mod_eq_of_lt hy] at hx2
  rw [Nat.mod_eq_of_lt hx] at hx2
  exact hx2.symm

theorem Mp_pos {E : Nat} (h : 1 ≤ E) : 0 < Mp E := by
  have h2 : 1 < 2 ^ E := Nat.one_lt_two_pow (by omega)
  unfold Mp
  omega

theorem le_mul8_nBytes (E : Nat) : E ≤ 8 * nBytes E := by
  unfold nBytes
  omega

theorem Mp_lt_pow (E : Nat) : Mp E < 256 ^ nBytes E := by
  have h1 : (256 : Nat) ^ nBytes E = 2 ^ (8 * nBytes E) := by
    rw [show (256 : Nat) = 2 ^ 8 by norm_num, ← pow_mul]
  have h2 : (2 : Nat) ^ E ≤ 2 ^ (8 * nBytes E) :=
    Nat.pow_le_pow_right (by omega) (le_mul8_nBytes E)
  have h3 : 0 < 2 ^ E := Nat.pos_pow_of_pos E (by omega)
  unfold Mp
  omega

theorem sqIter_lt {E : Nat} (hm : 0 < Mp E) {v : Nat} (hv : v < Mp E) (n : Nat) :
    sqIter E n v < Mp E := by
  induction n generalizing v with
  | zero => exact hv
  | succ k ih => exact ih (Nat.mod_lt _ hm)

theorem squareRepeated_lt {E : Nat} (hm : 0 < Mp E) (n v : Nat) :
    squareRepeated E n v < Mp E := by
  unfold squareRepeated
  exact sqIter_lt hm (Nat.mod_lt _ hm) n

theorem specCombine_lt {E : Nat} (hm : 0 < Mp E) (x c y : Nat) :
    specCombine E x c y < Mp E := by
  unfold specCombine
  exact Nat.mod_lt _ hm

/-! ### Helper lemmas about roundUp and the serializer -/

theorem roundUp_mod (x m : Nat) : roundUp x m % m = 0 := by
  unfold roundUp
  exact Nat.mul_mod_left _ _

theorem lt_roundUp (x : Nat) {m : Nat} (hm : 0 < m) : x < roundUp x m := by
  have h1 : m * (x / m) + x % m = x := Nat.div_add_mod x m
  have h2 : x % m < m := Nat.mod_lt x hm
  have h3 : roundUp x m = m * (x / m) + m := by unfold roundUp; ring
  omega

theorem roundUp_le {x m t : Nat} (ht : t % m = 0) (hx : x < t) :
    roundUp x m ≤ t := by
  have hd : m ∣ t := Nat.dvd_of_mod_eq_zero ht
  have h1 : x / m < t / m := Nat.div_lt_div_of_lt_of_dvd hd hx
  have h2 : (x / m + 1) * m ≤ t / m * m := Nat.mul_le_mul_right m h1
  rw [Nat.div_mul_cancel hd] at h2
  exact h2

theorem readBytesLE_ne_badHeader (n : Nat) (bs : List Nat) :
    readBytesLE n bs ≠ .error .badHeader := by
  unfold readBytesLE
  split <;> simp

theorem readMiddles_ne_badHeader (n : Nat) :
    ∀ (k : Nat) (bs : List Nat), readMiddles n k bs ≠ .error .badHeader := by
  intro k
  induction k with
  | zero => intro bs; simp [readMiddles]
  | succ j ih =>
    intro bs
    simp only [readMiddles]
    cases h1 : readBytesLE n bs with
    | error e =>
      have h2 := readBytesLE_ne_badHeader n bs
      rw [h1] at h2
      simp only [ne_eq, Except.error.injEq] at h2 ⊢
      exact h2
    | ok v =>
      obtain ⟨w, bs1⟩ := v
      show (match readMiddles n j bs1 with
        | .error e => Except.error e
        | .ok (ws, bs2) => Except.ok (w :: ws, bs2)) ≠ Except.error ProofErr.badHeader
      cases h3 : readMiddles n j bs1 with
      | error e =>
        have h4 := ih bs1
        rw [h3] at h4
        simp only [ne_eq, Except.error.injEq] at h4 ⊢
        exact h4
      | ok v2 =>
        obtain ⟨ws, bs2⟩ := v2
        simp

theorem readBytesLE_exact {n : Nat} {w : Words} (rest : List Nat) (h : w.length = n) :
    readBytesLE n (w ++ rest) = .ok (w, rest) := by
  unfold readBytesLE
  have hlen : (w ++ rest).length = n + rest.length := by simp [h]
  rw [if_neg (by omega), ← h, List.take_left, List.drop_left]

theorem readMiddles_exact {n : Nat} :
    ∀ (ms : List Words), (∀ w ∈ ms, w.length = n) →
      readMiddles n ms.length (ms.foldr (fun a b => a ++ b) []) = .ok (ms, []) := by
  intro ms
  induction ms with
  | nil => intro _; rfl
  | cons w ms ih =>
    intro h
    have hw : w.length = n := h w (by simp)
    simp only [List.length_cons, List.foldr_cons, readMiddles]
    rw [readBytesLE_exact _ hw]
    show (match readMiddles n ms.length (ms.foldr (fun a b => a ++ b) []) with
      | .error e => Except.error e
      | .ok (ws, bs2) => Except.ok (w :: ws, bs2)) = Except.ok (w :: ms, [])
    rw [ih (fun x hx => h x (by simp [hx]))]

theorem readMiddles_short {n : Nat} :
    ∀ (k : Nat) (bs : List Nat), bs.length < n * k →
      readMiddles n k bs = .error .shortRead := by
  intro k
  induction k with
  | zero => intro bs h; omega
  | succ j ih =>
    intro bs h
    simp only [readMiddles]
    by_cases hb : bs.length < n
    · rw [show readBytesLE n bs = .error .shortRead by unfold readBytesLE; rw [if_pos hb]]
    · rw [show readBytesLE n bs = .ok (bs.take n, bs.drop n) by
        unfold readBytesLE; rw [if_neg hb]]
      have hd : (bs.drop n).length < n * j := by
        simp only [List.length_drop]
        have hms : n * (j + 1) = n * j + n := by ring
        omega
      show (match readMiddles n j (bs.drop n) with
        | .error e => Except.error e
        | .ok (ws, bs2) => Except.ok (bs.take n :: ws, bs2)) = Except.error .shortRead
      rw [ih (bs.drop n) hd]

/-! ### Claim theorems (serializer, metadata, hash, roundUp, verifier frame) -/

/-- C3: for every exponent E and power P, the derived `topK = roundUp(E, 1 << P)`
is the smallest multiple of 2^P strictly greater than E, so `topK % (1 << P) = 0`
and `topK > E`; concretely `roundUp 23 4 = 24` and `step = 24 / 4 = 6`. -/
theorem topK_roundUp_spec (E P : Nat) :
    roundUp E (2 ^ P) % 2 ^ P = 0
      ∧ E < roundUp E (2 ^ P)
      ∧ (∀ t, t % 2 ^ P = 0 → E < t → roundUp E (2 ^ P) ≤ t)
      ∧ roundUp 23 (2 ^ 2) = 24 ∧ roundUp 23 (2 ^ 2) / 2 ^ 2 = 6 := by
  refine ⟨roundUp_mod E (2 ^ P), lt_roundUp E (Nat.pos_pow_of_pos P (by omega)),
    ?_, by norm_num [roundUp], by norm_num [roundUp]⟩
  intro t ht hx
  exact roundUp_le ht hx

/-- Witness for C3 at E = 23, P = 2: all parts evaluated concretely. -/
theorem topK_roundUp_spec_witness :
    roundUp 23 (2 ^ 2) % 2 ^ 2 = 0 ∧ 23 < roundUp 23 (2 ^ 2) ∧ roundUp 23 (2 ^ 2) ≤ 24 :=
  ⟨(topK_roundUp_spec 23 2).1, (topK_roundUp_spec 23 2).2.1,
    (topK_roundUp_spec 23 2).2.2.1 24 (by decide) (by decide)⟩

/-- C8: for E ≥ 1, both challenge hash functions consume exactly ceil(E/8)
bytes of the residue — the byte count `(E-1)/8+1` equals `(E+7)/8` — and are
pure functions of the absorbed stream. -/
theorem hashWords_consume_exact (sha3 : List Nat → Nat) (E pre : Nat) (w : Words)
    (hE : 1 ≤ E) :
    (E - 1) / 8 + 1 = (E + 7) / 8
      ∧ hashWords sha3 E w = sha3 (w.take ((E + 7) / 8))
      ∧ hashWordsPre sha3 E pre w = sha3 (hash256ToBytes pre ++ w.take ((E + 7) / 8)) := by
  have h : (E - 1) / 8 + 1 = (E + 7) / 8 := by omega
  exact ⟨h, by rw [hashWords, h], by rw [hashWordsPre, h]⟩

/-- Witness for C8 at E = 23 with a concrete hash function and residue. -/
theorem hashWords_consume_exact_witness :
    (23 - 1) / 8 + 1 = (23 + 7) / 8
      ∧ hashWords (fun bs => bs.length) 23 [5] = (fun bs : List Nat => bs.length) ([5].take ((23 + 7) / 8))
      ∧ hashWordsPre (fun bs => bs.length) 23 4 [5]
          = (fun bs : List Nat => bs.length) (hash256ToBytes 4 ++ [5].take ((23 + 7) / 8)) :=
  hashWords_consume_exact (fun bs => bs.length) 23 4 [5] (by decide)

/-- C9: the probable-prime signal of `Proof::verify` is exactly
`expExp2(3, topK - E + 1) == B`, and the returned `ok` outcome is the
fold-check result alone, not depending on that signal. -/
theorem verify_prime_signal (sha3 : List Nat → Nat) (p : Proof) :
    (p.verifyRun sha3).isPrime
        = (expExp2 p.E (makeWords p.E 3)
            (roundUp p.E (2 ^ p.middles.length) - p.E + 1) == p.B)
      ∧ (p.verifyRun sha3).ok = p.foldCheck sha3 :=
  ⟨rfl, rfl⟩

/-- C4 (amended): verification leaves the fields `E` and `middles` unchanged;
the field `B`, however, is reassigned by the folding loop (see the
counterexample), so the Proof is not immutable under `verify`. -/
theorem verify_preserves_E_middles (sha3 : List Nat → Nat) (p : Proof) :
    (p.verifyRun sha3).final.E = p.E ∧ (p.verifyRun sha3).final.middles = p.middles :=
  ⟨rfl, rfl⟩

/-- Counterexample to C4 as stated: a concrete Proof whose field `B` differs
after `Proof::verify` runs (line 110 reassigns the member `B`). -/
theorem verify_mutates_B :
    ((Proof.mk 2 [2] [[2]]).verifyRun (fun _ => 1)).final.B ≠ (Proof.mk 2 [2] [[2]]).B := by
  decide

/-- C10: `Proof::load` accepts a file with header power = 0 and returns a
Proof with empty middles, violating the `assert(power > 0)` precondition of
`Proof::verify`; under the precondition `power ≥ 1` all three verify
assertions hold. -/
theorem load_accepts_power_zero :
    Proof.load { scanCount := 3, power := 0, E := 1, c := 10, body := [0] }
        = .ok { E := 1, B := [0], middles := [] }
      ∧ ¬ (Proof.mk 1 [0] []).verifyAsserts
      ∧ ∀ p : Proof, 0 < p.middles.length → p.verifyAsserts := by
  refine ⟨rfl, ?_, ?_⟩
  · intro h
    exact absurd h.1 (by decide)
  · intro p hp
    exact ⟨hp, roundUp_mod _ _, lt_roundUp _ (Nat.pos_pow_of_pos _ (by omega))⟩

/-- Witness for C10: the verify assertions hold at a concrete one-level Proof. -/
theorem load_accepts_power_zero_witness : (Proof.mk 1 [0] [[0]]).verifyAsserts :=
  load_accepts_power_zero.2.2 (Proof.mk 1 [0] [[0]]) (by decide)

/-- C6: a wrong header field count or a missing trailing newline makes both
`Proof::load` and `proof::getInfo` fail with the header format error; a
well-formed header never triggers that error. -/
theorem header_validation (md5 : ProofFile → Nat) (f : ProofFile) :
    (f.scanCount ≠ 3 ∨ f.c ≠ 10 →
        Proof.load f = .error .badHeader ∧ proof.getInfo md5 f = .error .badHeader)
      ∧ (f.scanCount = 3 ∧ f.c = 10 →
        proof.getInfo md5 f = .ok { power := f.power, E := f.E, hash := md5 f }
          ∧ Proof.load f ≠ .error .badHeader) := by
  constructor
  · intro h
    constructor
    · unfold Proof.load
      rw [if_pos h]
    · unfold proof.getInfo
      rw [if_pos h]
  · rintro ⟨h1, h2⟩
    have hno : ¬(f.scanCount ≠ 3 ∨ f.c ≠ 10) := by simp [h1, h2]
    constructor
    · unfold proof.getInfo
      rw [if_neg hno]
    · unfold Proof.load
      rw [if_neg hno]
      cases h3 : readBytesLE (nBytes f.E) f.body with
      | error e =>
        have h4 := readBytesLE_ne_badHeader (nBytes f.E) f.body
        rw [h3] at h4
        simp only [ne_eq, Except.error.injEq] at h4 ⊢
        exact h4
      | ok v =>
        obtain ⟨B, rest⟩ := v
        show (match readMiddles (nBytes f.E) f.power rest with
          | .error e => Except.error e
          | .ok (middles, _) => Except.ok (Proof.mk f.E B middles))
            ≠ Except.error ProofErr.badHeader
        cases h5 : readMiddles (nBytes f.E) f.power rest with
        | error e =>
          have h6 := readMiddles_ne_badHeader (nBytes f.E) f.power rest
          rw [h5] at h6
          simp only [ne_eq, Except.error.injEq] at h6 ⊢
          exact h6
        | ok v2 =>
          obtain ⟨ms, r2⟩ := v2
          simp

/-- Witness for C6: a file with field count 2 is rejected by both readers; a
file with a good header is accepted by the metadata reader. -/
theorem header_validation_witness :
    (Proof.load ⟨2, 0, 1, 10, []⟩ = .error .badHeader
        ∧ proof.getInfo (fun _ => 7) ⟨2, 0, 1, 10, []⟩ = .error .badHeader)
      ∧ proof.getInfo (fun _ => 7) ⟨3, 0, 1, 10, []⟩ = .ok { power := 0, E := 1, hash := 7 } :=
  ⟨(header_validation (fun _ => 7) ⟨2, 0, 1, 10, []⟩).1 (by decide),
    ((header_validation (fun _ => 7) ⟨3, 0, 1, 10, []⟩).2 (by decide)).1⟩

/-- C7: when the header is well formed but the body holds fewer than
`power + 1` blocks of `ceil(E/8)` bytes (B plus `power` middles),
deserialization fails with the truncated-read error and returns no Proof. -/
theorem load_truncated_body (f : ProofFile) (h3 : f.scanCount = 3) (hc : f.c = 10)
    (hlen : f.body.length < nBytes f.E * (f.power + 1)) :
    Proof.load f = .error .shortRead := by
  unfold Proof.load
  rw [if_neg (by simp [h3, hc])]
  by_cases hb : f.body.length < nBytes f.E
  · rw [show readBytesLE (nBytes f.E) f.body = .error .shortRead by
      unfold readBytesLE; rw [if_pos hb]]
  · rw [show readBytesLE (nBytes f.E) f.body
        = .ok (f.body.take (nBytes f.E), f.body.drop (nBytes f.E)) by
      unfold readBytesLE; rw [if_neg hb]]
    show (match readMiddles (nBytes f.E) f.power (f.body.drop (nBytes f.E)) with
      | .error e => Except.error e
      | .ok (middles, _) =>
        Except.ok (Proof.mk f.E (f.body.take (nBytes f.E)) middles))
        = Except.error ProofErr.shortRead
    have hd : (f.body.drop (nBytes f.E)).length < nBytes f.E * f.power := by
      simp only [List.length_drop]
      have hms : nBytes f.E * (f.power + 1) = nBytes f.E * f.power + nBytes f.E := by ring
      omega
    rw [readMiddles_short f.power _ hd]

/-- Witness for C7: header power = 3 over a body with only B plus two blocks
(E = 8, so one byte per block) fails with the truncated-read error. -/
theorem load_truncated_body_witness :
    Proof.load ⟨3, 3, 8, 10, [1, 2, 3]⟩ = .error .shortRead :=
  load_truncated_body ⟨3, 3, 8, 10, [1, 2, 3]⟩ rfl rfl (by decide)

/-- C5: serializing a Proof (well-formed per the data model: residues of
exactly ceil(E/8) bytes) and deserializing the result yields an equal Proof
in all fields. -/
theorem save_load_roundtrip (p : Proof) (_hE : 1 ≤ p.E) (hB : p.B.length = nBytes p.E)
    (hm : ∀ w ∈ p.middles, w.length = nBytes p.E) :
    Proof.load (Proof.save p) = .ok p := by
  have htake : p.B.take (nBytes p.E) = p.B := by
    rw [← hB]; exact List.take_length p.B
  have hmap : p.middles.map (fun w => w.take (nBytes p.E)) = p.middles := by
    conv_rhs => rw [← List.map_id p.middles]
    exact List.map_congr_left (fun w hw => by rw [← hm w hw]; exact List.take_length w)
  unfold Proof.load Proof.save
  simp only []
  rw [if_neg (by simp)]
  rw [htake, hmap]
  rw [readBytesLE_exact (p.middles.foldr (fun a b => a ++ b) []) hB]
  show (match readMiddles (nBytes p.E) p.middles.length (p.middles.foldr (fun a b => a ++ b) []) with
    | .error e => Except.error e
    | .ok (middles, _) => Except.ok (Proof.mk p.E p.B middles))
      = Except.ok p
  rw [readMiddles_exact p.middles hm]

/-- Witness for C5 at a concrete two-level Proof with E = 8. -/
theorem save_load_roundtrip_witness :
    Proof.load (Proof.save (Proof.mk 8 [5] [[7], [9]])) = .ok (Proof.mk 8 [5] [[7], [9]]) :=
  save_load_roundtrip (Proof.mk 8 [5] [[7], [9]]) (by decide) (by decide) (by decide)

/-! ### C1: the verifier performs exactly the fold-check of spec §4.5 -/

theorem beq_natToWords {nB x y : Nat} (hx : x < 256 ^ nB) (hy : y < 256 ^ nB) :
    (natToWords nB x == natToWords nB y) = (x == y) := by
  rw [Bool.eq_iff_iff]
  simp only [beq_iff_eq]
  constructor
  · exact natToWords_inj hx hy
  · intro h; rw [h]

theorem foldStep_rel (sha3 : List Nat → Nat) {E : Nat} (hE : 1 ≤ E)
    (cs : Words × Words × Nat) (ss : Nat × Nat × Nat) (M : Words)
    (h1 : cs.1 = natToWords (nBytes E) ss.1) (h2 : cs.2.1 = natToWords (nBytes E) ss.2.1)
    (h3 : cs.2.2 = ss.2.2) (h4 : ss.1 < Mp E) (h5 : ss.2.1 < Mp E) :
    (verifyFoldStep sha3 E cs M).1 = natToWords (nBytes E) ((specFoldStep sha3 E ss M).1)
      ∧ (verifyFoldStep sha3 E cs M).2.1
        = natToWords (nBytes E) ((specFoldStep sha3 E ss M).2.1)
      ∧ (verifyFoldStep sha3 E cs M).2.2 = (specFoldStep sha3 E ss M).2.2
      ∧ (specFoldStep sha3 E ss M).1 < Mp E
      ∧ (specFoldStep sha3 E ss M).2.1 < Mp E := by
  have hmp := Mp_pos hE
  have hlt := Mp_lt_pow E
  have hv1 : wordsToNat cs.1 = ss.1 := by
    rw [h1, wordsToNat_natToWords, Nat.mod_eq_of_lt (lt_trans h4 hlt)]
  have hv2 : wordsToNat cs.2.1 = ss.2.1 := by
    rw [h2, wordsToNat_natToWords, Nat.mod_eq_of_lt (lt_trans h5 hlt)]
  simp only [verifyFoldStep, specFoldStep, expMul, h3, hv1, hv2]
  exact ⟨trivial, trivial, trivial, specCombine_lt hmp _ _ _, specCombine_lt hmp _ _ _⟩

theorem foldRel (sha3 : List Nat → Nat) {E : Nat} (hE : 1 ≤ E) :
    ∀ (ms : List Words) (cs : Words × Words × Nat) (ss : Nat × Nat × Nat),
      cs.1 = natToWords (nBytes E) ss.1 → cs.2.1 = natToWords (nBytes E) ss.2.1 →
      cs.2.2 = ss.2.2 → ss.1 < Mp E → ss.2.1 < Mp E →
      (ms.foldl (verifyFoldStep sha3 E) cs).1
          = natToWords (nBytes E) ((ms.foldl (specFoldStep sha3 E) ss).1)
        ∧ (ms.foldl (verifyFoldStep sha3 E) cs).2.1
          = natToWords (nBytes E) ((ms.foldl (specFoldStep sha3 E) ss).2.1)
        ∧ (ms.foldl (specFoldStep sha3 E) ss).1 < Mp E
        ∧ (ms.foldl (specFoldStep sha3 E) ss).2.1 < Mp E := by
  intro ms
  induction ms with
  | nil =>
    intro cs ss h1 h2 h3 h4 h5
    exact ⟨h1, h2, h4, h5⟩
  | cons M ms ih =>
    intro cs ss h1 h2 h3 h4 h5
    obtain ⟨g1, g2, g3, g4, g5⟩ := foldStep_rel sha3 hE cs ss M h1 h2 h3 h4 h5
    simp only [List.foldl_cons]
    exact ih _ _ g1 g2 g3 g4 g5

theorem foldStep_rel_init (sha3 : List Nat → Nat) {E : Nat} (hE : 1 ≤ E)
    (B M : Words) (pre : Nat) :
    (verifyFoldStep sha3 E (makeWords E 3, B, pre) M).1
        = natToWords (nBytes E) ((specFoldStep sha3 E (3, wordsToNat B, pre) M).1)
      ∧ (verifyFoldStep sha3 E (makeWords E 3, B, pre) M).2.1
        = natToWords (nBytes E) ((specFoldStep sha3 E (3, wordsToNat B, pre) M).2.1)
      ∧ (verifyFoldStep sha3 E (makeWords E 3, B, pre) M).2.2
        = (specFoldStep sha3 E (3, wordsToNat B, pre) M).2.2
      ∧ (specFoldStep sha3 E (3, wordsToNat B, pre) M).1 < Mp E
      ∧ (specFoldStep sha3 E (3, wordsToNat B, pre) M).2.1 < Mp E := by
  have hmp := Mp_pos hE
  have h0 : 1 ≤ nBytes E := by unfold nBytes; omega
  have h1 : (256 : Nat) ^ 1 ≤ 256 ^ nBytes E := Nat.pow_le_pow_right (by omega) h0
  rw [pow_one] at h1
  have hv1 : wordsToNat (makeWords E 3) = 3 := by
    rw [makeWords, wordsToNat_natToWords, Nat.mod_eq_of_lt (by omega)]
  simp only [verifyFoldStep, specFoldStep, expMul, hv1]
  exact ⟨trivial, trivial, trivial, specCombine_lt hmp _ _ _, specCombine_lt hmp _ _ _⟩

/-- C1: for every Proof with non-empty middles (and a valid exponent E ≥ 1),
the accepted outcome returned by `Proof::verify` is exactly the fold-check
algorithm of spec §4.5 step 3: A = 3, h = H(E,B), per-level hash extension and
`combine` updates of A and B with the low 64 hash bits as challenge, then
`step = topK / 2^power` repeated squarings of A, accepting iff the final A
equals the final B. -/
theorem verify_matches_specFoldCheck (sha3 : List Nat → Nat) (p : Proof) (hE : 1 ≤ p.E)
    (hne : p.middles ≠ []) :
    (p.verifyRun sha3).ok
      = specFoldCheck sha3 p.E p.B p.middles
          (roundUp p.E (2 ^ p.middles.length) / 2 ^ p.middles.length) := by
  obtain ⟨E, B, middles⟩ := p
  simp only at hE hne ⊢
  cases middles with
  | nil => exact absurd rfl hne
  | cons M ms =>
    simp only [Proof.verifyRun, specFoldCheck, List.foldl_cons]
    obtain ⟨i1, i2, i3, i4, i5⟩ := foldStep_rel_init sha3 hE B M (hashWords sha3 E B)
    obtain ⟨g1, g2, g3, g4⟩ :=
      foldRel sha3 hE ms
        (verifyFoldStep sha3 E (makeWords E 3, B, hashWords sha3 E B) M)
        (specFoldStep sha3 E (3, wordsToNat B, hashWords sha3 E B) M)
        i1 i2 i3 i4 i5
    rw [g1, g2]
    have hlt := Mp_lt_pow E
    have ha : wordsToNat (natToWords (nBytes E)
        ((ms.foldl (specFoldStep sha3 E)
          (specFoldStep sha3 E (3, wordsToNat B, hashWords sha3 E B) M)).1))
        = (ms.foldl (specFoldStep sha3 E)
          (specFoldStep sha3 E (3, wordsToNat B, hashWords sha3 E B) M)).1 := by
      rw [wordsToNat_natToWords, Nat.mod_eq_of_lt (lt_trans g3 hlt)]
    unfold expExp2
    rw [ha]
    exact beq_natToWords (lt_trans (squareRepeated_lt (Mp_pos hE) _ _) hlt) (lt_trans g4 hlt)

/-- Witness for C1 at a concrete one-level Proof with E = 2. -/
theorem verify_matches_specFoldCheck_witness :
    ((Proof.mk 2 [2] [[2]]).verifyRun (fun _ => 1)).ok
      = specFoldCheck (fun _ => 1) 2 [2] [[2]] (roundUp 2 (2 ^ 1) / 2 ^ 1) :=
  verify_matches_specFoldCheck (fun _ => 1) (Proof.mk 2 [2] [[2]]) (by decide) (by decide)

/-! ### C2: the builder folds each level into one accumulator -/

theorem trailOnes_of_even {n : Nat} (h : n % 2 = 0) : trailOnes n = 0 := by
  rw [trailOnes]
  simp [h]

theorem trailOnes_of_odd {n : Nat} (h : n % 2 = 1) : trailOnes n = trailOnes (n / 2) + 1 := by
  rw [trailOnes]
  simp [h]

theorem onesCount_of_ne {n : Nat} (h : n ≠ 0) : onesCount n = n % 2 + onesCount (n / 2) := by
  rw [onesCount]
  simp [h]

theorem onesCount_zero : onesCount 0 = 0 := by
  rw [onesCount]
  simp

theorem trailOnes_le_onesCount (n : Nat) : trailOnes n ≤ onesCount n := by
  induction n using Nat.strong_induction_on with
  | _ n ih =>
    by_cases h0 : n = 0
    · subst h0
      rw [trailOnes_of_even (by omega), onesCount_zero]
    · by_cases h1 : n % 2 = 1
      · rw [trailOnes_of_odd h1, onesCount_of_ne h0, h1]
        have hd := ih (n / 2) (Nat.div_lt_self (by omega) (by omega))
        omega
      · rw [trailOnes_of_even (by omega)]
        omega

theorem onesCount_succ_add_trailOnes (n : Nat) :
    onesCount (n + 1) + trailOnes n = onesCount n + 1 := by
  induction n using Nat.strong_induction_on with
  | _ n ih =>
    by_cases h1 : n % 2 = 1
    · have hdiv : (n + 1) / 2 = n / 2 + 1 := by omega
      have hmod : (n + 1) % 2 = 0 := by omega
      rw [trailOnes_of_odd h1, @onesCount_of_ne (n + 1) (by omega), hmod, hdiv,
        @onesCount_of_ne n (by omega), h1]
      have hrec := ih (n / 2) (Nat.div_lt_self (by omega) (by omega))
      omega
    · have hdiv : (n + 1) / 2 = n / 2 := by omega
      have hmod : (n + 1) % 2 = 1 := by omega
      rw [trailOnes_of_even (by omega), @onesCount_of_ne (n + 1) (by omega), hmod, hdiv]
      by_cases h0 : n = 0
      · subst h0
        norm_num [onesCount_zero]
      · rw [@onesCount_of_ne n h0]
        omega

theorem onesCount_two_pow (p : Nat) : onesCount (2 ^ p) = 1 := by
  induction p with
  | zero =>
    rw [pow_zero, @onesCount_of_ne 1 (by omega)]
    norm_num [onesCount_zero]
  | succ q ih =>
    have hne : 2 ^ (q + 1) ≠ 0 := Nat.pos_iff_ne_zero.mp (Nat.pos_pow_of_pos _ (by omega))
    have hmod : 2 ^ (q + 1) % 2 = 0 := by
      rw [pow_succ]
      exact Nat.mul_mod_left _ _
    have hdiv : 2 ^ (q + 1) / 2 = 2 ^ q := by
      rw [pow_succ]
      exact Nat.mul_div_cancel _ (by omega)
    rw [onesCount_of_ne hne, hmod, hdiv, ih]

theorem foldTrailAux_length (E : Nat) (hs : List Nat) (p i : Nat) :
    ∀ (t k fuel : Nat) (stack : List Nat),
      trailOnes (i / 2 ^ k) = t → t < stack.length → stack.length ≤ fuel →
      (foldTrailAux E hs p i fuel k stack).length = stack.length - t := by
  intro t
  induction t with
  | zero =>
    intro k fuel stack ht hlen hfuel
    have hmod : i / 2 ^ k % 2 ≠ 1 := by
      intro hm
      rw [trailOnes_of_odd hm] at ht
      omega
    have hbit : i.testBit k = false := by
      rw [Nat.testBit_to_div_mod]
      simp [hmod]
    cases fuel with
    | zero => rfl
    | succ f =>
      show (if i.testBit k then _ else stack).length = stack.length - 0
      rw [hbit]
      simp
  | succ t ih =>
    intro k fuel stack ht hlen hfuel
    have hmod : i / 2 ^ k % 2 = 1 := by
      by_cases hm : i / 2 ^ k % 2 = 1
      · exact hm
      · rw [trailOnes_of_even (by omega)] at ht
        omega
    have hbit : i.testBit k = true := by
      rw [Nat.testBit_to_div_mod]
      simp [hmod]
    have ht2 : trailOnes (i / 2 ^ (k + 1)) = t := by
      have hdd : i / 2 ^ (k + 1) = i / 2 ^ k / 2 := by
        rw [pow_succ, Nat.div_div_eq_div_mul]
      rw [trailOnes_of_odd hmod] at ht
      rw [hdd]
      omega
    cases stack with
    | nil => simp at hlen
    | cons y stack2 =>
      cases stack2 with
      | nil => simp at hlen
      | cons x rest =>
        cases fuel with
        | zero => simp at hfuel
        | succ f =>
          have hstep : foldTrailAux E hs p i (f + 1) k (y :: x :: rest)
              = foldTrailAux E hs p i f (k + 1)
                  (specCombine E x (hs.getD (p - 1 - k) 0) y :: rest) := by
            show (if i.testBit k then
                match y :: x :: rest with
                | y :: x :: rest =>
                  foldTrailAux E hs p i f (k + 1)
                    (specCombine E x (hs.getD (p - 1 - k) 0) y :: rest)
                | s => s
              else y :: x :: rest) = _
            rw [hbit]
            rfl
          rw [hstep]
          have hg := ih (k + 1) f (specCombine E x (hs.getD (p - 1 - k) 0) y :: rest) ht2
            (by simp at hlen ⊢; omega) (by simp at hfuel ⊢; omega)
          rw [hg]
          simp only [List.length_cons]
          omega

theorem buildStep_length (E : Nat) (hs : List Nat) (p topK : Nat) (load : Nat → Words)
    (stack : List Nat) (i : Nat) (h : trailOnes i ≤ stack.length) :
    (buildStep E hs p topK load stack i).length = stack.length + 1 - trailOnes i := by
  unfold buildStep foldTrail
  have hi : i / 2 ^ 0 = i := by rw [pow_zero, Nat.div_one]
  have hlen := foldTrailAux_length E hs p i (trailOnes i) 0
    (wordsToNat (load (topK / 2 ^ (p + 1) * (2 * i + 1))) :: stack).length
    (wordsToNat (load (topK / 2 ^ (p + 1) * (2 * i + 1))) :: stack)
    (by rw [hi]) (by simp only [List.length_cons]; omega) (le_refl _)
  rw [hlen]
  simp only [List.length_cons]

theorem levelStack_length (E : Nat) (hs : List Nat) (p topK : Nat) (load : Nat → Words)
    (n : Nat) :
    ((List.range n).foldl (buildStep E hs p topK load) []).length = onesCount n := by
  induction n with
  | zero => simp [onesCount_zero]
  | succ m ih =>
    rw [List.range_succ, List.foldl_append, List.foldl_cons, List.foldl_nil]
    rw [buildStep_length E hs p topK load _ m (by rw [ih]; exact trailOnes_le_onesCount m)]
    rw [ih]
    have h1 := onesCount_succ_add_trailOnes m
    have h2 := trailOnes_le_onesCount m
    omega

theorem buildStateAt_succ (sha3 : List Nat → Nat) (E topK : Nat) (load : Nat → Words)
    (p : Nat) :
    buildStateAt sha3 E topK load (p + 1)
      = buildLevel sha3 E topK load (buildStateAt sha3 E topK load p) p := by
  unfold buildStateAt
  rw [List.range_succ, List.foldl_append, List.foldl_cons, List.foldl_nil]

theorem buildStateAt_middles_length (sha3 : List Nat → Nat) (E topK : Nat)
    (load : Nat → Words) : ∀ p, (buildStateAt sha3 E topK load p).middles.length = p := by
  intro p
  induction p with
  | zero => rfl
  | succ q ih =>
    rw [buildStateAt_succ]
    simp only [buildLevel, List.length_append, List.length_cons, List.length_nil]
    rw [ih]

theorem buildStateAt_middles_getD (sha3 : List Nat → Nat) (E topK : Nat)
    (load : Nat → Words) (p : Nat) :
    ∀ q, p < q → (buildStateAt sha3 E topK load q).middles.getD p []
        = (buildStateAt sha3 E topK load (p + 1)).middles.getD p [] := by
  intro q
  induction q with
  | zero => intro h; omega
  | succ r ih =>
    intro h
    by_cases hr : p < r
    · rw [buildStateAt_succ]
      have hlen := buildStateAt_middles_length sha3 E topK load r
      simp only [buildLevel]
      rw [List.getD_append _ _ _ p (by rw [hlen]; exact hr)]
      exact ih hr
    · have hpr : p = r := by omega
      subst hpr
      rfl

theorem buildStateAt_middles_last (sha3 : List Nat → Nat) (E topK : Nat)
    (load : Nat → Words) (p : Nat) :
    (buildStateAt sha3 E topK load (p + 1)).middles.getD p []
      = readAndCompress E
          (((List.range (2 ^ p)).foldl
            (buildStep E (buildStateAt sha3 E topK load p).hashes p topK load)
            []).getLast?.getD 0) := by
  rw [buildStateAt_succ]
  have hlen := buildStateAt_middles_length sha3 E topK load p
  simp only [buildLevel]
  rw [List.getD_append_right _ _ _ p hlen.le]
  rw [hlen]
  simp

theorem buildStateAt_hashes_succ (sha3 : List Nat → Nat) (E topK : Nat)
    (load : Nat → Words) (p : Nat) :
    (buildStateAt sha3 E topK load (p + 1)).hashes
      = (buildStateAt sha3 E topK load p).hashes
        ++ [hashWordsPre sha3 E (buildStateAt sha3 E topK load p).hash
            ((buildStateAt sha3 E topK load (p + 1)).middles.getD p []) % 2 ^ 64] := by
  rw [buildStateAt_middles_last sha3 E topK load p]
  rw [buildStateAt_succ]
  simp only [buildLevel]

/-- C2: for power P > 0, `ProofSet::computeProof` produces exactly P middles,
one per level; at level p the stack built from the 2^p persisted residues at
iteration indices `s*(2i+1)`, `s = topK/2^(p+1)` (see `buildStep`), collapses
to exactly one accumulator, whose compression is that level's middle; and
after appending the middle the hash chain advances by `H(E, hash, middle)`,
whose low 64 bits are appended to the challenge list consumed by the next
level's folding. -/
theorem computeProof_builds (sha3 : List Nat → Nat) (E power topK : Nat)
    (load : Nat → Words) (_hpow : 0 < power) :
    (ProofSet.computeProof sha3 E power topK load).middles.length = power
      ∧ ∀ p, p < power →
          ((List.range (2 ^ p)).foldl
              (buildStep E (buildStateAt sha3 E topK load p).hashes p topK load) []).length
            = 1
        ∧ (ProofSet.computeProof sha3 E power topK load).middles.getD p []
            = readAndCompress E
                (((List.range (2 ^ p)).foldl
                  (buildStep E (buildStateAt sha3 E topK load p).hashes p topK load)
                  []).getLast?.getD 0)
        ∧ (buildStateAt sha3 E topK load (p + 1)).hashes
            = (buildStateAt sha3 E topK load p).hashes
              ++ [hashWordsPre sha3 E (buildStateAt sha3 E topK load p).hash
                  ((ProofSet.computeProof sha3 E power topK load).middles.getD p [])
                    % 2 ^ 64] := by
  have hproj : (ProofSet.computeProof sha3 E power topK load).middles
      = (buildStateAt sha3 E topK load power).middles := rfl
  constructor
  · rw [hproj]
    exact buildStateAt_middles_length sha3 E topK load power
  · intro p hp
    have hstack := levelStack_length E (buildStateAt sha3 E topK load p).hashes p topK load
      (2 ^ p)
    rw [onesCount_two_pow] at hstack
    have hgd : (ProofSet.computeProof sha3 E power topK load).middles.getD p []
        = (buildStateAt sha3 E topK load (p + 1)).middles.getD p [] := by
      rw [hproj]
      exact buildStateAt_middles_getD sha3 E topK load p power hp
    refine ⟨hstack, ?_, ?_⟩
    · rw [hgd]
      exact buildStateAt_middles_last sha3 E topK load p
    · rw [hgd]
      exact buildStateAt_hashes_succ sha3 E topK load p

/-- Witness for C2 at E = 23, power = 2, topK = 24 with a concrete hash
function and persisted-residue store. -/
theorem computeProof_builds_witness :
    (ProofSet.computeProof (fun _ => 0) 23 2 24 (fun _ => [1, 0, 0])).middles.length = 2
      ∧ ((List.range (2 ^ 1)).foldl
          (buildStep 23 (buildStateAt (fun _ => 0) 23 24 (fun _ => [1, 0, 0]) 1).hashes 1 24
            (fun _ => [1, 0, 0])) []).length = 1 :=
  ⟨(computeProof_builds (fun _ => 0) 23 2 24 (fun _ => [1, 0, 0]) (by decide)).1,
    ((computeProof_builds (fun _ => 0) 23 2 24 (fun _ => [1, 0, 0]) (by decide)).2 1
      (by decide)).1⟩
